import Mathlib

/-!
Verification development for the BakeCall / BakeryGhar calling-agent backend.

The JavaScript sources are shallowly embedded: typed-array element stores are
modelled by an explicit 16-bit wrap (`toInt16`), JS number truncation on store
by `truncQ`, and IEEE double arithmetic on in-range values by exact rationals.
Lists stand for Int16Array / Uint8Array contents, in order.
-/

namespace BakeCall

/-- Conversion applied by a JS Int16Array element store: reduce the integer
value modulo 2^16 into the signed range [-32768, 32767]. -/
def toInt16 (n : ℤ) : ℤ := (n + 32768) % 65536 - 32768

/-- Truncation toward zero, the integer conversion JS applies to a Number
before a typed-array store. -/
def truncQ (q : ℚ) : ℤ := Int.tdiv q.num q.den

/-- truncQ is the floor on nonnegative rationals and the ceiling on negative
ones, i.e. truncation toward zero. -/
theorem truncQ_eq (q : ℚ) : truncQ q = if 0 ≤ q then ⌊q⌋ else ⌈q⌉ := by
  unfold truncQ
  by_cases h : 0 ≤ q
  · rw [if_pos h, Rat.floor_def]
    exact Int.tdiv_eq_ediv (Rat.num_nonneg.mpr h) (Int.ofNat_nonneg q.den)
  · rw [if_neg h]
    have hq : 0 ≤ -q := by linarith [lt_of_not_ge h]
    have h1 : Int.tdiv (-q).num ((-q).den : ℤ) = ⌊-q⌋ := by
      rw [Rat.floor_def]
      exact Int.tdiv_eq_ediv (Rat.num_nonneg.mpr hq) (Int.ofNat_nonneg (-q).den)
    rw [Rat.neg_num, Rat.neg_den, Int.neg_tdiv] at h1
    rw [Int.floor_neg] at h1
    omega

/-!
Codec (src/audio-utils.js, initTables): two lookup tables, embedded here as
the functions that fill them.  Table reads `ulawToLinear[c]` and
`linearToUlaw[v + 32768]` become applications `ulawToLinear c` and
`linearToUlaw v`.
-/

/-- Entry `c` of the 256-entry decode table (src/audio-utils.js lines 13-18).
In the source, `ulaw = ~i` followed by byte-masked uses of `ulaw` works on the
low byte of the complement, i.e. on `255 - i`; the shift `t <<= seg` is
multiplication by `2 ^ seg`, and the Int16Array store is the 16-bit wrap. -/
def ulawToLinear (c : ℕ) : ℤ :=
  let u : ℕ := 255 - c % 256
  let t : ℕ := ((u &&& 0x0f) <<< 3) + 0x84
  let t2 : ℕ := t <<< ((u &&& 0x70) >>> 4)
  toInt16 (if u &&& 0x80 ≠ 0 then (0x84 : ℤ) - (t2 : ℤ) else (t2 : ℤ) - 0x84)

/-- Entry `i + 32768` of the 65536-entry encode table (src/audio-utils.js
lines 20-51), for the 16-bit sample `i`.  The JS expression
`(sample >> 8) & 0x80` is an arithmetic shift of a 32-bit integer followed by
a low-byte bit test, modelled by floor division and a byte mask; the cascade
of comparisons assigning `exponent` is written as the equivalent nested
conditional; the final `~x & 0xFF` on a byte-sized value is `255 - x`. -/
def linearToUlaw (i : ℤ) : ℕ :=
  let sign : ℕ := ((Int.fdiv i 256) % 256).toNat &&& 0x80
  let s0 : ℤ := if i < 0 then -i else i
  let s1 : ℤ := if s0 > 8159 then 8159 else s0
  let s : ℕ := (s1 + 0x84).toNat
  let exponent : ℕ :=
    if s > 0x1F then
      if s > 0x3F then
        if s > 0x7F then
          if s > 0xFF then
            if s > 0x1FF then
              if s > 0x3FF then
                if s > 0x7FF then 7 else 6
              else 5
            else 4
          else 3
        else 2
      else 1
    else 0
  let mantissa : ℕ := (s >>> (exponent + 3)) &&& 0x0F
  255 - ((sign ||| (exponent <<< 4)) ||| mantissa)

/-- decodeUlaw (src/audio-utils.js lines 54-61): map the decode table over a
byte buffer. -/
def decodeUlaw (buffer : List ℕ) : List ℤ :=
  buffer.map ulawToLinear

/-- encodeUlaw (src/audio-utils.js lines 63-71): map the encode table over a
16-bit sample buffer. -/
def encodeUlaw (buffer : List ℤ) : List ℕ :=
  buffer.map linearToUlaw

/-!
Resamplers (src/audio-utils.js lines 73-117, first revision of the file:
gain 2.5, filter weights 0.2 / 0.6 / 0.2).  The JS arithmetic on doubles is
exact on the values that occur (sums, halves and 2.5-multiples of 16-bit
integers), so it is embedded over ℤ after scaling away the fixed
denominators; the bridge lemmas below relate the integer forms back to the
rational expressions the spec speaks about.
-/

/-- upsample8kTo16k (src/audio-utils.js lines 73-83).  The loop writes, for
each input index i, the current sample to slot 2i and `(current + next) / 2`
to slot 2i + 1, with the last sample standing in for the missing successor;
the float quotient is truncated toward zero by the Int16Array store, which
on integers is T-division by 2.  The loop advances one input sample per
step, so it is embedded as structural recursion consuming one element at a
time. -/
def upsample8kTo16k : List ℤ → List ℤ
  | [] => []
  | [c] => [toInt16 c, toInt16 (Int.tdiv (c + c) 2)]
  | c :: nx :: rest =>
      toInt16 c :: toInt16 (Int.tdiv (c + nx) 2) ::
        upsample8kTo16k (nx :: rest)

/-- Twice the gain-scaled clamped sample of src/audio-utils.js lines 100-107:
the source computes `clamp(x * 2.5)` with clamp bounds -32768 and 32767, a
half-integer; doubling both sides keeps it in ℤ, giving
`clamp(5 * x)` with bounds -65536 and 65534. -/
def scaleClamp2 (x : ℤ) : ℤ := max (-65536) (min 65534 (5 * x))

/-- downsample24kTo8k (src/audio-utils.js lines 90-117).  The loop fills a
preallocated array of length `len / 3` slot by slot; slot i reads the anchor
index `i * 3` (`idx` in the source) and, when `idx + 2 < len`, scales the
three samples by the gain 2.5, clamps each to the 16-bit range, combines
them with the weights 0.2 / 0.6 / 0.2 and stores the result, the store
truncating toward zero and wrapping.  In doubled form the combination
`0.2 p1 + 0.6 p2 + 0.2 p3` is `(d1 + 3 d2 + d3) / 10` for `dk = 2 pk`, and
the truncation is T-division by 10 (lemma `tdiv10_eq_truncQ_comb` below
restates the slot in the original rational form). -/
def downsample24kTo8k (xs : List ℤ) : List ℤ :=
  (List.range (xs.length / 3)).map fun i =>
    if i * 3 + 2 < xs.length then
      toInt16 (Int.tdiv
        (scaleClamp2 (xs.getD (i * 3) 0) + 3 * scaleClamp2 (xs.getD (i * 3 + 1) 0) +
          scaleClamp2 (xs.getD (i * 3 + 2) 0)) 10)
    else
      toInt16 (xs.getD (i * 3) 0)

/-- T-division presented through Euclidean division, for bound reasoning. -/
theorem tdiv_as_ediv (x n : ℤ) (hn : 0 ≤ n) :
    Int.tdiv x n = if 0 ≤ x then x / n else -((-x) / n) := by
  by_cases h : 0 ≤ x
  · rw [if_pos h]
    exact Int.tdiv_eq_ediv h hn
  · rw [if_neg h]
    have h2 : 0 ≤ -x := by omega
    calc Int.tdiv x n = Int.tdiv (-(-x)) n := by ring_nf
      _ = -Int.tdiv (-x) n := Int.neg_tdiv (-x) n
      _ = -((-x) / n) := by rw [Int.tdiv_eq_ediv h2 hn]

/-- truncQ agrees with the integer T-division on integer quotients. -/
theorem truncQ_intCast_div (m : ℤ) (n : ℕ) :
    truncQ ((m : ℚ) / (n : ℚ)) = Int.tdiv m n := by
  rcases Nat.eq_zero_or_pos n with h0 | hpos
  · subst h0
    rw [Nat.cast_zero, Nat.cast_zero, div_zero, Int.tdiv_zero]
    unfold truncQ
    norm_num
  rw [truncQ_eq]
  by_cases h : 0 ≤ m
  · have hq : 0 ≤ (m : ℚ) / (n : ℚ) := by positivity
    rw [if_pos hq, Rat.floor_intCast_div_natCast,
      Int.tdiv_eq_ediv h (Int.ofNat_nonneg n)]
  · have hm : m < 0 := by omega
    have hn : (0 : ℚ) < (n : ℚ) := by exact_mod_cast hpos
    have hq : ¬(0 ≤ (m : ℚ) / (n : ℚ)) := by
      have : (m : ℚ) < 0 := by exact_mod_cast hm
      simp only [not_le]
      exact div_neg_of_neg_of_pos this hn
    rw [if_neg hq]
    have h2 : -((m : ℚ) / (n : ℚ)) = ((-m : ℤ) : ℚ) / (n : ℚ) := by
      push_cast
      ring
    have h1 : (⌈(m : ℚ) / (n : ℚ)⌉ : ℤ) = -⌊-((m : ℚ) / (n : ℚ))⌋ := by
      rw [Int.floor_neg, neg_neg]
    rw [h1, h2, Rat.floor_intCast_div_natCast]
    rw [tdiv_as_ediv m n (Int.ofNat_nonneg n), if_neg h]

/-- One line item of an order, per the declared tool schema
(src/server.js lines 398-409); every field is optional in the arguments the
model actually sends. -/
structure LineItem where
  product : Option String
  flavor : Option String
  weight : Option String
  quantity : Option ℚ
deriving DecidableEq

/-- Arguments of a create_order tool call (`fc.args`), per the declared
schema (src/server.js lines 391-411).  The schema marks all five top-level
fields required, but nothing in the bridge checks presence, so each is an
Option here. -/
structure OrderArgs where
  customer_name : Option String
  phone_number : Option String
  address : Option String
  delivery_datetime : Option String
  items : Option (List LineItem)
deriving DecidableEq

/-- A stored order record: `{ id, ...fc.args, created_at, status }`
(src/server.js lines 550-555). -/
structure Order where
  id : String
  customer_name : Option String
  phone_number : Option String
  address : Option String
  delivery_datetime : Option String
  items : Option (List LineItem)
  created_at : String
  status : String
deriving DecidableEq

/-- The orders.json file: absent, present but unparseable, or a parsed list
of records. -/
inductive FileState
  | absent
  | corrupt
  | good (orders : List Order)
deriving DecidableEq

/-- getSavedOrders (src/server.js lines 321-328): a missing file and a file
whose contents fail to parse both read as the empty list. -/
def getSavedOrders : FileState → List Order
  | .absent => []
  | .corrupt => []
  | .good orders => orders

/-- saveOrderToFile (src/server.js lines 330-335): read the current list,
unshift the new order to the front writing the result back. -/
def saveOrderToFile (fs : FileState) (order : Order) : FileState :=
  .good (order :: getSavedOrders fs)

/-- updateOrderStatus (src/server.js lines 337-347): findIndex on the order
id, and when found set that record's status in place and report true,
otherwise report false.  The findIndex-then-set pair is embedded as the
first-match recursion it performs. -/
def updateOrderStatus : List Order → String → String → Bool × List Order
  | [], _, _ => (false, [])
  | o :: rest, orderId, status =>
    if o.id = orderId then
      (true, { o with status := status } :: rest)
    else
      ((updateOrderStatus rest orderId status).1,
        o :: (updateOrderStatus rest orderId status).2)

/-- The result object sent back through sendToolResponse
(src/server.js lines 547-565): `{status: "created", order_id}` after a save,
the default `{status: "success"}` otherwise. -/
structure ToolResult where
  status : String
  order_id : Option String
deriving DecidableEq

/-- The tool-execution branch of the model message handler
(src/server.js lines 545-567) for a single function call `fc`: a
create_order call builds `{ id, ...fc.args, created_at, status: created }`,
saves it and answers `{status: created, order_id}`; every other tool name
falls through with the default `{status: success}` result and touches
nothing.  The first revision (lines 185-208) differs only in an
`else if` branch for transfer_to_agent that logs the reason and likewise
leaves the default result and the store untouched.  The impure identifier
`"ord_" + Date.now()` and the timestamp are taken as arguments. -/
def dispatchToolCall (fs : FileState) (fcName : String) (args : OrderArgs)
    (orderId createdAt : String) : ToolResult × FileState :=
  if fcName = "create_order" then
    (⟨"created", some orderId⟩,
      saveOrderToFile fs
        ⟨orderId, args.customer_name, args.phone_number, args.address,
          args.delivery_datetime, args.items, createdAt, "created"⟩)
  else
    (⟨"success", none⟩, fs)

/-- A function call carried by a model toolCall message. -/
structure ToolCall where
  id : String
  name : String
  args : OrderArgs
deriving DecidableEq

/-- One message from the model session as the onmessage callback reads it:
an optional inline audio chunk (24 kHz samples), tool calls, and the
interruption flag `serverContent.interrupted`. -/
structure ModelMsg where
  audioData : Option (List ℤ)
  toolCalls : List ToolCall
  interrupted : Bool
deriving DecidableEq

/-- A message sent to the telephony websocket: an outbound media frame
(mu-law payload; the base64 wrapper is a bijection and is dropped), or the
clear message that flushes buffered audio. -/
inductive TwilioOut
  | media (sid : String) (payload : List ℕ)
  | clear (sid : String)
deriving DecidableEq

/-- The telephony sends performed by the model message handler
(src/server.js lines 526-574; the first revision at lines 163-216 has the
same three blocks in the same order), in source order: if the message
carries audio and a streamSid is known, downsample, encode and send a media
frame; the tool-execution block in between sends only to the model session,
not to telephony; finally, if the message signals an interruption and a
streamSid is known, send the clear message. -/
def onModelMessage (streamSid : Option String) (msg : ModelMsg) :
    List TwilioOut :=
  (match msg.audioData, streamSid with
    | some pcm24k, some sid =>
        [TwilioOut.media sid (encodeUlaw (downsample24kTo8k pcm24k))]
    | _, _ => []) ++
  (match msg.interrupted, streamSid with
    | true, some sid => [TwilioOut.clear sid]
    | _, _ => [])

/-!
Session lifecycle (src/server.js, first revision: websocket handler at
lines 134-264).  The mutable closure variables streamSid / isSessionOpen and
the two connections are gathered into an explicit state.
-/

/-- The per-call session state: whether the telephony websocket is open,
whether the model sub-session is open (`isSessionOpen`), and the stream id
received in the start frame. -/
structure SessionState where
  wsOpen : Bool
  modelOpen : Bool
  streamSid : Option String
deriving DecidableEq

/-- Discrete events driving one session: telephony start / media / stop
frames, and the model sub-session closing. -/
inductive SessEvent
  | twilioStart (sid : String)
  | twilioMedia
  | twilioStop
  | modelClose
deriving DecidableEq

/-- The Gemini onclose callback (src/server.js lines 218-222): record the
model session closed and call `ws.close()` on the telephony socket. -/
def geminiOnClose (s : SessionState) : SessionState :=
  { s with modelOpen := false, wsOpen := false }

/-- Closing the model sub-session (`session.close()`, src/server.js
line 256): when it is open this fires the onclose callback; on an already
closed session it is a no-op. -/
def closeModelSession (s : SessionState) : SessionState :=
  if s.modelOpen then geminiOnClose s else s

/-- One step of the session state machine: the telephony message handler
(src/server.js lines 231-258) plus the model-side close callback.  start
records the stream id; media forwards audio without touching the lifecycle;
stop closes the model sub-session; the model closing runs onclose. -/
def stepSession (s : SessionState) : SessEvent → SessionState
  | .twilioStart sid => { s with streamSid := some sid }
  | .twilioMedia => s
  | .twilioStop => closeModelSession s
  | .modelClose => closeModelSession s

/-- A session starting in the Streaming configuration (both sides open)
driven by a sequence of events. -/
def runSession (evs : List SessEvent) : SessionState :=
  evs.foldl stepSession ⟨true, true, none⟩

/-- The Gemini onclose callback of the second server.js revision
(src/server.js lines 575-577): it only clears the open flag
(`isSessionOpen = false`) and, unlike the first revision, never calls
`ws.close()`; indeed no code path of the second revision closes the
telephony websocket. -/
def geminiOnCloseRev2 (s : SessionState) : SessionState :=
  { s with modelOpen := false }

/-- Closing the model sub-session in the second revision
(src/server.js line 498): fires the revision-2 onclose when open. -/
def closeModelSessionRev2 (s : SessionState) : SessionState :=
  if s.modelOpen then geminiOnCloseRev2 s else s

/-- One step of the session state machine of the second server.js revision
(telephony message handler at lines 475-500 plus the onclose callback at
lines 575-577). -/
def stepSessionRev2 (s : SessionState) : SessEvent → SessionState
  | .twilioStart sid => { s with streamSid := some sid }
  | .twilioMedia => s
  | .twilioStop => closeModelSessionRev2 s
  | .modelClose => closeModelSessionRev2 s

/-- A revision-2 session starting in the Streaming configuration driven by
a sequence of events. -/
def runSessionRev2 (evs : List SessEvent) : SessionState :=
  evs.foldl stepSessionRev2 ⟨true, true, none⟩

/-!
Helper lemmas shared by the claim theorems.
-/

/-- A value already in the signed 16-bit range is fixed by the store wrap. -/
theorem toInt16_eq_self {n : ℤ} (h1 : -32768 ≤ n) (h2 : n ≤ 32767) :
    toInt16 n = n := by
  unfold toInt16
  omega

/-- truncQ is the identity on integers. -/
theorem truncQ_intCast (n : ℤ) : truncQ ((n : ℤ) : ℚ) = n := by
  rw [truncQ_eq]
  by_cases h : 0 ≤ ((n : ℤ) : ℚ)
  · rw [if_pos h, Int.floor_intCast]
  · rw [if_neg h, Int.ceil_intCast]

/-- The truncated rational half of an integer sum is its T-division by 2. -/
theorem truncQ_half (a b : ℤ) :
    truncQ (((a : ℚ) + (b : ℚ)) / 2) = Int.tdiv (a + b) 2 := by
  have h := truncQ_intCast_div (a + b) 2
  push_cast at h
  exact h

/-- The truncated half of two 16-bit values is again 16-bit. -/
theorem tdiv_two_bounds {a b : ℤ} (ha1 : -32768 ≤ a) (ha2 : a ≤ 32767)
    (hb1 : -32768 ≤ b) (hb2 : b ≤ 32767) :
    -32768 ≤ Int.tdiv (a + b) 2 ∧ Int.tdiv (a + b) 2 ≤ 32767 := by
  rw [tdiv_as_ediv (a + b) 2 (by norm_num)]
  split <;> omega

/-- One step preserves the two sides being equally open or closed. -/
theorem stepSession_eq_open (s : SessionState) (e : SessEvent)
    (h : s.wsOpen = s.modelOpen) :
    (stepSession s e).wsOpen = (stepSession s e).modelOpen := by
  cases e <;> simp only [stepSession, closeModelSession, geminiOnClose] <;>
    first
      | exact h
      | (split <;> simp [h])

/-- A termination event drives a balanced state to fully closed. -/
theorem stepSession_term_closed (s : SessionState) (e : SessEvent)
    (h : s.wsOpen = s.modelOpen)
    (he : e = SessEvent.twilioStop ∨ e = SessEvent.modelClose) :
    (stepSession s e).wsOpen = false ∧ (stepSession s e).modelOpen = false := by
  rcases he with rfl | rfl <;>
    · simp only [stepSession, closeModelSession, geminiOnClose]
      split
      · exact ⟨rfl, rfl⟩
      · rename_i hopen
        simp only [Bool.not_eq_true] at hopen
        exact ⟨by rw [h, hopen], hopen⟩

/-- No step reopens a fully closed session. -/
theorem stepSession_closed (s : SessionState) (e : SessEvent)
    (h1 : s.wsOpen = false) (h2 : s.modelOpen = false) :
    (stepSession s e).wsOpen = false ∧ (stepSession s e).modelOpen = false := by
  cases e <;>
    simp only [stepSession, closeModelSession, geminiOnClose, h1, h2] <;>
    simp [h1, h2]

/-- A fully closed session stays fully closed under any event sequence. -/
theorem foldl_stepSession_closed :
    ∀ (evs : List SessEvent) (s : SessionState),
      s.wsOpen = false → s.modelOpen = false →
      (evs.foldl stepSession s).wsOpen = false ∧
        (evs.foldl stepSession s).modelOpen = false
  | [], s, h1, h2 => ⟨h1, h2⟩
  | e :: rest, s, h1, h2 => by
    obtain ⟨g1, g2⟩ := stepSession_closed s e h1 h2
    simpa using foldl_stepSession_closed rest (stepSession s e) g1 g2

/-- Main induction for the close-coupling property: from any balanced
state, the run stays balanced, and it is fully closed once a termination
event has been processed. -/
theorem foldl_stepSession_main :
    ∀ (evs : List SessEvent) (s : SessionState),
      s.wsOpen = s.modelOpen →
      ((evs.foldl stepSession s).wsOpen = (evs.foldl stepSession s).modelOpen) ∧
      ((SessEvent.twilioStop ∈ evs ∨ SessEvent.modelClose ∈ evs) →
        (evs.foldl stepSession s).wsOpen = false ∧
          (evs.foldl stepSession s).modelOpen = false)
  | [], s, h => ⟨h, by intro hmem; rcases hmem with h1 | h1 <;> simp at h1⟩
  | e :: rest, s, h => by
    have hstep := stepSession_eq_open s e h
    obtain ⟨ih1, ih2⟩ := foldl_stepSession_main rest (stepSession s e) hstep
    refine ⟨by simpa using ih1, ?_⟩
    intro hmem
    by_cases he : e = SessEvent.twilioStop ∨ e = SessEvent.modelClose
    · obtain ⟨g1, g2⟩ := stepSession_term_closed s e h he
      simpa using foldl_stepSession_closed rest (stepSession s e) g1 g2
    · push_neg at he
      have hrest : SessEvent.twilioStop ∈ rest ∨ SessEvent.modelClose ∈ rest := by
        rcases hmem with h1 | h1
        · rcases List.mem_cons.mp h1 with h2 | h2
          · exact absurd h2.symm he.1
          · exact Or.inl h2
        · rcases List.mem_cons.mp h1 with h2 | h2
          · exact absurd h2.symm he.2
          · exact Or.inr h2
      simpa using ih2 hrest

/-- No event of the second revision ever changes the telephony flag. -/
theorem stepSessionRev2_wsOpen (s : SessionState) (e : SessEvent) :
    (stepSessionRev2 s e).wsOpen = s.wsOpen := by
  cases e <;> simp only [stepSessionRev2, closeModelSessionRev2,
    geminiOnCloseRev2] <;>
    first
      | rfl
      | (split <;> rfl)

/-- The telephony flag is constant along any revision-2 run. -/
theorem foldl_stepSessionRev2_wsOpen :
    ∀ (evs : List SessEvent) (s : SessionState),
      (evs.foldl stepSessionRev2 s).wsOpen = s.wsOpen
  | [], _ => rfl
  | e :: rest, s => by
    rw [List.foldl_cons, foldl_stepSessionRev2_wsOpen rest (stepSessionRev2 s e),
      stepSessionRev2_wsOpen]

/-- A closed model sub-session stays closed in revision 2. -/
theorem stepSessionRev2_model_closed (s : SessionState) (e : SessEvent)
    (h : s.modelOpen = false) : (stepSessionRev2 s e).modelOpen = false := by
  cases e <;> simp [stepSessionRev2, closeModelSessionRev2, geminiOnCloseRev2, h]

/-- A termination event closes the model sub-session in revision 2. -/
theorem stepSessionRev2_term (s : SessionState) (e : SessEvent)
    (he : e = SessEvent.twilioStop ∨ e = SessEvent.modelClose) :
    (stepSessionRev2 s e).modelOpen = false := by
  rcases he with rfl | rfl <;>
    · simp only [stepSessionRev2, closeModelSessionRev2, geminiOnCloseRev2]
      split
      · rfl
      · rename_i hopen
        simpa using hopen

/-- Once the revision-2 model sub-session is closed it stays closed. -/
theorem foldl_stepSessionRev2_closed :
    ∀ (evs : List SessEvent) (s : SessionState),
      s.modelOpen = false → (evs.foldl stepSessionRev2 s).modelOpen = false
  | [], _, h => h
  | e :: rest, s, h => by
    simpa using foldl_stepSessionRev2_closed rest (stepSessionRev2 s e)
      (stepSessionRev2_model_closed s e h)

/-- A revision-2 run containing a termination event ends with the model
sub-session closed (though the telephony flag is untouched). -/
theorem foldl_stepSessionRev2_main :
    ∀ (evs : List SessEvent) (s : SessionState),
      (SessEvent.twilioStop ∈ evs ∨ SessEvent.modelClose ∈ evs) →
      (evs.foldl stepSessionRev2 s).modelOpen = false
  | [], _, hmem => by rcases hmem with h1 | h1 <;> simp at h1
  | e :: rest, s, hmem => by
    by_cases he : e = SessEvent.twilioStop ∨ e = SessEvent.modelClose
    · simpa using foldl_stepSessionRev2_closed rest (stepSessionRev2 s e)
        (stepSessionRev2_term s e he)
    · push_neg at he
      have hrest : SessEvent.twilioStop ∈ rest ∨ SessEvent.modelClose ∈ rest := by
        rcases hmem with h1 | h1
        · rcases List.mem_cons.mp h1 with h2 | h2
          · exact absurd h2.symm he.1
          · exact Or.inl h2
        · rcases List.mem_cons.mp h1 with h2 | h2
          · exact absurd h2.symm he.2
          · exact Or.inr h2
      simpa using foldl_stepSessionRev2_main rest (stepSessionRev2 s e) hrest

/-!
Claim theorems.
-/

/-- Claim C1, evidence of the code bug.  The claim says decoding the encoded
value reproduces every 16-bit sample within the companding quantization
bound (about 1/32 relative at high segments).  The code instead yields
decode(encode(0)) = 1052, decode(encode(1000)) = 9340,
decode(encode(8159)) = 24956 and decode(encode(-1000)) = -9340: the encoder
applies the 14-bit variant of the mu-law constants (CLIP 8159, segment
thresholds 0x1F..0x7FF) directly to 16-bit samples while the decoder is the
standard 16-bit expansion, so the round-trip error exceeds the claimed
bound by orders of magnitude, as the second conjunct records for sample
1000. -/
theorem C1_roundtrip_code_eval :
    decodeUlaw (encodeUlaw [0, 1000, 8159, -1000]) =
      [1052, 9340, 24956, -9340] ∧
    ¬(32 * (9340 - 1000 : ℤ) ≤ 1000) :=
  ⟨by decide, by decide⟩

/-- Claim C2, evidence of the code bug.  The claim says a create_order call
missing a required field (here the address) yields a failure result and no
stored record.  The dispatch performs no validation: the call is answered
with status "created" and the record, address and all other absent fields
included as null, is persisted to the store. -/
theorem C2_missing_address_still_persisted :
    (dispatchToolCall (FileState.good []) "create_order"
      ⟨some "Asha", some "9800000000", none, some "tomorrow 5pm", some []⟩
      "ord_1" "t0").1 = ⟨"created", some "ord_1"⟩ ∧
    getSavedOrders (dispatchToolCall (FileState.good []) "create_order"
      ⟨some "Asha", some "9800000000", none, some "tomorrow 5pm", some []⟩
      "ord_1" "t0").2 =
      [⟨"ord_1", some "Asha", some "9800000000", none, some "tomorrow 5pm",
        some [], "t0", "created"⟩] :=
  ⟨by decide, by decide⟩

/-- Claim C3, counterexample to the claim as stated.  When the model message
that carries the interruption flag also carries an audio part, the handler
sends the media frame before the clear, so the very next telephony message
after the interruption signal arrives is not the clear. -/
theorem C3_media_precedes_clear_cex :
    onModelMessage (some "MZ") ⟨some [0], [], true⟩ =
      [TwilioOut.media "MZ" [], TwilioOut.clear "MZ"] ∧
    (onModelMessage (some "MZ") ⟨some [0], [], true⟩).head? ≠
      some (TwilioOut.clear "MZ") :=
  ⟨by decide, by decide⟩

/-- Claim C3 as amended: when an interruption signal arrives in a Streaming
session, the clear message for the streamSid is emitted as the final
telephony send of that event, hence before any audio of later model
messages; audio carried in the same model message precedes it, and when the
interrupting message carries no audio the clear is the very next telephony
message. -/
theorem C3_clear_after_interrupt (sid : String) (msg : ModelMsg)
    (hint : msg.interrupted = true) :
    (onModelMessage (some sid) msg).getLast? = some (TwilioOut.clear sid) ∧
    (msg.audioData = none →
      onModelMessage (some sid) msg = [TwilioOut.clear sid]) := by
  obtain ⟨ad, tc, intr⟩ := msg
  simp only at hint
  subst hint
  cases ad with
  | none => exact ⟨rfl, fun _ => rfl⟩
  | some pcm => exact ⟨rfl, fun hcontra => by simp at hcontra⟩

/-- Claim C3 witness: the amended theorem applied to a concrete
interruption-only message. -/
theorem C3_clear_after_interrupt_witness :
    (⟨none, [], true⟩ : ModelMsg).interrupted = true ∧
    (onModelMessage (some "MZ2") ⟨none, [], true⟩).getLast? =
      some (TwilioOut.clear "MZ2") ∧
    onModelMessage (some "MZ2") ⟨none, [], true⟩ = [TwilioOut.clear "MZ2"] := by
  have h := C3_clear_after_interrupt "MZ2" ⟨none, [], true⟩ rfl
  exact ⟨rfl, h.1, h.2 rfl⟩

/-- Claim C4, counterexample to the claim as stated.  In the second
server.js revision the onclose callback only clears the open flag and never
calls `ws.close()`, so after the model sub-session closes the session is in
a reachable state with the telephony connection open and the model session
closed, which the claim rules out. -/
theorem C4_rev2_model_close_dangles :
    runSessionRev2 [SessEvent.modelClose] =
      ⟨true, false, none⟩ ∧
    (runSessionRev2 [SessEvent.modelClose]).wsOpen ≠
      (runSessionRev2 [SessEvent.modelClose]).modelOpen :=
  ⟨by decide, by decide⟩

/-- Claim C4 as amended: starting from a Streaming session, a termination
event (telephony stop or model-session close) always leaves the model
sub-session closed, in both server.js revisions.  In the first revision the
onclose callback also calls `ws.close()`, so the run never reaches a state
with one side open and the other closed and any termination event leaves
both sides closed; in the second revision no code path closes the telephony
websocket, so its flag never changes and the session is left half-open
after the model side terminates. -/
theorem C4_no_half_open (evs : List SessEvent) :
    ((runSession evs).wsOpen = (runSession evs).modelOpen) ∧
    ((runSessionRev2 evs).wsOpen = true) ∧
    ((SessEvent.twilioStop ∈ evs ∨ SessEvent.modelClose ∈ evs) →
      ((runSession evs).wsOpen = false ∧ (runSession evs).modelOpen = false) ∧
      (runSessionRev2 evs).modelOpen = false) := by
  obtain ⟨h1, h2⟩ := foldl_stepSession_main evs ⟨true, true, none⟩ rfl
  exact ⟨h1, foldl_stepSessionRev2_wsOpen evs ⟨true, true, none⟩,
    fun hmem => ⟨h2 hmem, foldl_stepSessionRev2_main evs ⟨true, true, none⟩ hmem⟩⟩

/-- Claim C4 witness: a concrete run ending in a stop event leaves both
sides closed in the first revision and the model side closed in the
second. -/
theorem C4_no_half_open_witness :
    SessEvent.twilioStop ∈
      [SessEvent.twilioStart "MZ", SessEvent.twilioMedia,
        SessEvent.twilioStop] ∧
    (runSession [SessEvent.twilioStart "MZ", SessEvent.twilioMedia,
      SessEvent.twilioStop]).wsOpen = false ∧
    (runSession [SessEvent.twilioStart "MZ", SessEvent.twilioMedia,
      SessEvent.twilioStop]).modelOpen = false ∧
    (runSessionRev2 [SessEvent.twilioStart "MZ", SessEvent.twilioMedia,
      SessEvent.twilioStop]).modelOpen = false := by
  have h := (C4_no_half_open [SessEvent.twilioStart "MZ",
    SessEvent.twilioMedia, SessEvent.twilioStop]).2.2 (Or.inl (by decide))
  exact ⟨by decide, h.1.1, h.1.2, h.2⟩

/-- Claim C5, counterexample to the claim as stated.  A tool call whose name
is neither create_order nor transfer_to_agent is answered with the default
structured result whose status is "success", not with an UnknownToolError
error result. -/
theorem C5_unknown_tool_success_cex :
    (dispatchToolCall FileState.absent "frobnicate"
      ⟨none, none, none, none, none⟩ "ord_2" "t1").1 = ⟨"success", none⟩ ∧
    (⟨"success", none⟩ : ToolResult).status ≠ "UnknownToolError" :=
  ⟨by decide, by decide⟩

/-- Claim C5 as amended: for every tool call whose name is neither
create_order nor transfer_to_agent, the dispatch returns the default
structured success result to the model rather than throwing, leaves the
store untouched, and does not terminate the session. -/
theorem C5_unknown_tool_default_result (fs : FileState) (fcName : String)
    (args : OrderArgs) (orderId createdAt : String)
    (h1 : fcName ≠ "create_order") (_h2 : fcName ≠ "transfer_to_agent") :
    (dispatchToolCall fs fcName args orderId createdAt).1 =
      ⟨"success", none⟩ ∧
    (dispatchToolCall fs fcName args orderId createdAt).2 = fs := by
  unfold dispatchToolCall
  rw [if_neg h1]
  exact ⟨rfl, rfl⟩

/-- Claim C5 witness: the amended theorem applied to a concrete unknown
tool name. -/
theorem C5_unknown_tool_default_result_witness :
    ("echo" ≠ "create_order") ∧ ("echo" ≠ "transfer_to_agent") ∧
    (dispatchToolCall FileState.absent "echo" ⟨none, none, none, none, none⟩
      "ord_9" "t9").1 = ⟨"success", none⟩ ∧
    (dispatchToolCall FileState.absent "echo" ⟨none, none, none, none, none⟩
      "ord_9" "t9").2 = FileState.absent := by
  have h := C5_unknown_tool_default_result FileState.absent "echo"
    ⟨none, none, none, none, none⟩ "ord_9" "t9" (by decide) (by decide)
  exact ⟨by decide, by decide, h.1, h.2⟩

/-- Claim C9: updateOrderStatus is idempotent (a second identical call
returns the same flag and leaves the same stored list), preserves the
number of records (no duplicates are created), reports found exactly when a
record with the given id exists, and after a successful update the store
holds a record with that id carrying the requested status. -/
theorem C9_update_status_idempotent (orders : List Order)
    (orderId status : String) :
    updateOrderStatus (updateOrderStatus orders orderId status).2
        orderId status = updateOrderStatus orders orderId status ∧
    (updateOrderStatus orders orderId status).2.length = orders.length ∧
    ((updateOrderStatus orders orderId status).1 = true ↔
      ∃ o ∈ orders, o.id = orderId) ∧
    ((updateOrderStatus orders orderId status).1 = true →
      ∃ o ∈ (updateOrderStatus orders orderId status).2,
        o.id = orderId ∧ o.status = status) := by
  induction orders with
  | nil =>
    exact ⟨rfl, rfl, by simp [updateOrderStatus],
      fun hfound => by simp [updateOrderStatus] at hfound⟩
  | cons o rest ih =>
    by_cases hid : o.id = orderId
    · refine ⟨?_, ?_, ?_, ?_⟩
      · simp [updateOrderStatus, hid]
      · simp [updateOrderStatus, hid]
      · simp only [updateOrderStatus, if_pos hid]
        exact ⟨fun _ => ⟨o, List.mem_cons_self o rest, hid⟩, fun _ => by trivial⟩
      · simp only [updateOrderStatus, if_pos hid]
        exact fun _ => ⟨{ o with status := status },
          List.mem_cons_self _ rest, hid, rfl⟩
    · obtain ⟨ih1, ih2, ih3, ih4⟩ := ih
      refine ⟨?_, ?_, ?_, ?_⟩
      · simp [updateOrderStatus, hid, ih1]
      · simp [updateOrderStatus, hid, ih2]
      · simp only [updateOrderStatus, if_neg hid]
        rw [ih3]
        constructor
        · rintro ⟨x, hx, hxid⟩
          exact ⟨x, List.mem_cons_of_mem o hx, hxid⟩
        · rintro ⟨x, hx, hxid⟩
          rcases List.mem_cons.mp hx with rfl | h2
          · exact absurd hxid hid
          · exact ⟨x, h2, hxid⟩
      · simp only [updateOrderStatus, if_neg hid]
        intro hfound
        obtain ⟨x, hx, hxid, hxst⟩ := ih4 hfound
        exact ⟨x, List.mem_cons_of_mem o hx, hxid, hxst⟩

/-- Claim C9 witness: the theorem applied to a concrete one-record store,
showing the update is found and the record carries the new status. -/
theorem C9_update_status_idempotent_witness :
    (updateOrderStatus
      [⟨"ord_7", none, none, none, none, none, "t", "created"⟩]
      "ord_7" "delivered").1 = true ∧
    ∃ o ∈ (updateOrderStatus
      [⟨"ord_7", none, none, none, none, none, "t", "created"⟩]
      "ord_7" "delivered").2, o.id = "ord_7" ∧ o.status = "delivered" := by
  have h := C9_update_status_idempotent
    [⟨"ord_7", none, none, none, none, none, "t", "created"⟩]
    "ord_7" "delivered"
  exact ⟨by decide, h.2.2.2 (by decide)⟩

/-- Claim C10: a corrupt store file reads as the empty list; the next save
then writes a list holding only the new order, discarding everything the
file previously held; and reads after a save return the newest order
first. -/
theorem C10_corrupt_reset_prepend (o : Order) (fs : FileState) :
    getSavedOrders FileState.corrupt = [] ∧
    saveOrderToFile FileState.corrupt o = FileState.good [o] ∧
    getSavedOrders (saveOrderToFile fs o) = o :: getSavedOrders fs :=
  ⟨rfl, rfl, rfl⟩

/-- Claim C6, counterexample to the claim as stated.  Slot 1 of the
upsampled [1, 2] holds 1, which is not the arithmetic mean 3/2 of the
neighboring input samples: the Int16Array store truncates the mean. -/
theorem C6_exact_mean_cex :
    upsample8kTo16k [1, 2] = [1, 1, 2, 2] ∧
    ¬(2 * (upsample8kTo16k [1, 2]).getD 1 0 = 1 + 2) :=
  ⟨by decide, by decide⟩

/-- Claim C6 as amended: for an input of 16-bit samples of length n the
upsample output has length exactly 2n; position 2i holds input sample i,
and position 2i + 1 holds the arithmetic mean of input samples i and i + 1
truncated toward zero by the Int16Array store, with the last sample used in
place of the missing successor at the end. -/
theorem C6_upsample_indexed (xs : List ℤ)
    (h : ∀ x ∈ xs, -32768 ≤ x ∧ x ≤ 32767) :
    (upsample8kTo16k xs).length = 2 * xs.length ∧
    ∀ i, i < xs.length →
      (upsample8kTo16k xs).getD (2 * i) 0 = xs.getD i 0 ∧
      (upsample8kTo16k xs).getD (2 * i + 1) 0 =
        truncQ (((xs.getD i 0 : ℚ) +
          ((if i + 1 < xs.length then xs.getD (i + 1) 0
            else xs.getD i 0 : ℤ) : ℚ)) / 2) := by
  induction xs with
  | nil => exact ⟨rfl, fun i hi => absurd hi (by simp)⟩
  | cons c l ih =>
    have hc := h c (List.mem_cons_self c l)
    cases l with
    | nil =>
      refine ⟨rfl, fun i hi => ?_⟩
      have hi0 : i = 0 := by
        simp only [List.length_cons, List.length_nil] at hi
        omega
      subst hi0
      have hdiv : Int.tdiv (c + c) 2 = c := by
        have h2 : c + c = 2 * c := by ring
        rw [h2, Int.mul_tdiv_cancel_left c (by norm_num : (2 : ℤ) ≠ 0)]
      constructor
      · simp [upsample8kTo16k, toInt16_eq_self hc.1 hc.2]
      · show (upsample8kTo16k [c]).getD 1 0 = _
        simp only [upsample8kTo16k, List.getD_cons_succ, List.getD_cons_zero]
        rw [hdiv, toInt16_eq_self hc.1 hc.2]
        rw [if_neg (by simp)]
        rw [truncQ_half c c, hdiv]
    | cons nx rest =>
      have hnx := h nx (List.mem_cons_of_mem c (List.mem_cons_self nx rest))
      have hl : ∀ x ∈ nx :: rest, -32768 ≤ x ∧ x ≤ 32767 := fun x hx =>
        h x (List.mem_cons_of_mem c hx)
      obtain ⟨ihlen, ihidx⟩ := ih hl
      constructor
      · show (toInt16 c :: toInt16 (Int.tdiv (c + nx) 2) ::
          upsample8kTo16k (nx :: rest)).length = _
        simp only [List.length_cons, ihlen]
        omega
      · intro i hi
        cases i with
        | zero =>
          have hb := tdiv_two_bounds hc.1 hc.2 hnx.1 hnx.2
          constructor
          · simp [upsample8kTo16k, toInt16_eq_self hc.1 hc.2]
          · show (upsample8kTo16k (c :: nx :: rest)).getD 1 0 = _
            simp only [upsample8kTo16k, List.getD_cons_succ,
              List.getD_cons_zero]
            rw [toInt16_eq_self hb.1 hb.2]
            rw [if_pos (by simp)]
            rw [truncQ_half]
        | succ j =>
          have hj : j < (nx :: rest).length := by
            simp only [List.length_cons] at hi ⊢
            omega
          obtain ⟨e1, e2⟩ := ihidx j hj
          constructor
          · have harith : 2 * (j + 1) = 2 * j + 1 + 1 := by ring
            show (toInt16 c :: toInt16 (Int.tdiv (c + nx) 2) ::
              upsample8kTo16k (nx :: rest)).getD (2 * (j + 1)) 0 = _
            rw [harith, List.getD_cons_succ, List.getD_cons_succ, e1,
              List.getD_cons_succ]
          · have harith : 2 * (j + 1) + 1 = 2 * j + 1 + 1 + 1 := by ring
            show (toInt16 c :: toInt16 (Int.tdiv (c + nx) 2) ::
              upsample8kTo16k (nx :: rest)).getD (2 * (j + 1) + 1) 0 = _
            rw [harith, List.getD_cons_succ, List.getD_cons_succ, e2]
            simp only [List.length_cons, List.getD_cons_succ,
              Nat.add_lt_add_iff_right]

/-- Claim C6 witness: the amended theorem applied to the concrete input
[1, 2], giving the length law, the copied sample at slot 0 and the
truncated mean at slot 1. -/
theorem C6_upsample_indexed_witness :
    (∀ x ∈ ([1, 2] : List ℤ), -32768 ≤ x ∧ x ≤ 32767) ∧
    (upsample8kTo16k [1, 2]).length = 2 * ([1, 2] : List ℤ).length ∧
    (upsample8kTo16k [1, 2]).getD (2 * 0) 0 = ([1, 2] : List ℤ).getD 0 0 ∧
    (upsample8kTo16k [1, 2]).getD (2 * 0 + 1) 0 =
      truncQ (((([1, 2] : List ℤ).getD 0 0 : ℚ) +
        ((if 0 + 1 < ([1, 2] : List ℤ).length then ([1, 2] : List ℤ).getD (0 + 1) 0
          else ([1, 2] : List ℤ).getD 0 0 : ℤ) : ℚ)) / 2) := by
  have h := C6_upsample_indexed [1, 2] (by decide)
  exact ⟨by decide, h.1, (h.2 0 (by decide)).1, (h.2 0 (by decide)).2⟩

end BakeCall
